import Mathlib

/-! Shallow embedding of `src/test1.cpp`: a non-stationary 10-armed bandit
experiment comparing a sample-average agent and a constant-step-size agent
under an epsilon-greedy policy, with a shared pseudo-random generator.

Randomness is modelled by an explicit stream `f : Nat → ℚ` of abstract
variates together with a cursor `n`: each distribution call of the source
consumes exactly one stream element, in program order.  A call of
`normal_distribution(mu, sigma)` on variate `z` yields `mu + sigma * z`;
a call of `bernoulli_distribution(p)` on variate `u ∈ [0,1)` yields
`u < p` (true with probability `p`); a call of
`uniform_int_distribution(0, 9)` on variate `u ∈ [0,1)` yields `⌊10 u⌋`
clamped to 9.  Real (`double`) arithmetic is modelled over `ℚ`; the
`int` visitation counts are modelled over `ℤ`. -/

abbrev RStream := Nat → ℚ

/-- One draw from `normal_distribution(mu, sigma)` on variate `z`. -/
def normalDraw (mu sigma z : ℚ) : ℚ := mu + sigma * z

/-- One draw from `bernoulli_distribution(p)` on variate `u`. -/
def bernDraw (p u : ℚ) : Bool := decide (u < p)

/-- One draw from `uniform_int_distribution(0, 9)` on variate `u`. -/
def unifIntDraw (u : ℚ) : ℕ := min 9 (Int.toNat ⌊u * 10⌋)

/-- The kind of each random draw, recorded in consumption order. -/
inductive DrawKind where
  | walk
  | bern
  | unif
  | reward
deriving DecidableEq

/-- The scan of `std::max_element`: current best index `bi` with value `bv`,
index `i` of the next element, remaining elements.  A later element replaces
the best only when strictly greater, so the first maximum wins. -/
def argmaxFrom : ℕ → ℚ → ℕ → List ℚ → ℕ
  | bi, _, _, [] => bi
  | bi, bv, i, x :: xs =>
    if bv < x then argmaxFrom i x (i + 1) xs else argmaxFrom bi bv (i + 1) xs

/-- `distance(v.begin(), max_element(v.begin(), v.end()))` (0 on the empty
vector, where `max_element` returns `end`). -/
def maxElemIdx : List ℚ → ℕ
  | [] => 0
  | x :: xs => argmaxFrom 0 x 1 xs

/-- `class Bandit`: the vector `q_true` of true action values. -/
structure Bandit where
  q_true : List ℚ
deriving DecidableEq

/-- `Bandit::Bandit`: `q_true.resize(10, 0.0)`. -/
def Bandit.init : Bandit := ⟨List.replicate 10 0⟩

/-- The loop body of `Bandit::random_walk`: add one `walk_noise` draw
(`normal_distribution(0.0, 0.01)`) to each entry, front to back.  Returns the
walked values, the new cursor and the draw trace. -/
def walkList (f : RStream) : List ℚ → ℕ → List ℚ × ℕ × List DrawKind
  | [], n => ([], n, [])
  | q :: qs, n =>
    let rest := walkList f qs (n + 1)
    ((q + normalDraw 0 (1 / 100) (f n)) :: rest.1, rest.2.1, DrawKind.walk :: rest.2.2)

/-- `Bandit::random_walk`. -/
def Bandit.random_walk (b : Bandit) (f : RStream) (n : ℕ) : Bandit × ℕ × List DrawKind :=
  let w := walkList f b.q_true n
  (⟨w.1⟩, w.2.1, w.2.2)

/-- `Bandit::get_reward` on reward-noise variate `z`: `q_true[action] +
reward_noise(gen)` with `reward_noise = normal_distribution(0.0, 1.0)`.
Indexing is fallible: `none` models the out-of-range precondition
violation. -/
def Bandit.get_reward (b : Bandit) (action : ℕ) (z : ℚ) : Option ℚ :=
  (b.q_true.get? action).map fun q => q + normalDraw 0 1 z

/-- `Bandit::optimal_action`. -/
def Bandit.optimal_action (b : Bandit) : ℕ := maxElemIdx b.q_true

/-- `Bandit::reset`: `fill(q_true.begin(), q_true.end(), 0.0)`. -/
def Bandit.reset (b : Bandit) : Bandit := ⟨List.replicate b.q_true.length 0⟩

/-- `class SampleAverageAgent : public Agent`: estimates `Q`, exploration
parameter `epsilon` (the member `bern` is `bernoulli_distribution(1 - eps)`),
and visitation counts. -/
structure SampleAverageAgent where
  Q : List ℚ
  epsilon : ℚ
  counts : List ℤ
deriving DecidableEq

/-- `SampleAverageAgent::SampleAverageAgent(eps)`: `Q.resize(10, 0.0)`,
`counts.resize(10, 0)`. -/
def SampleAverageAgent.init (eps : ℚ) : SampleAverageAgent :=
  ⟨List.replicate 10 0, eps, List.replicate 10 0⟩

/-- `SampleAverageAgent::update`: `counts[action]++;
Q[action] += (reward - Q[action]) / counts[action];`. -/
def SampleAverageAgent.update (ag : SampleAverageAgent) (action : ℕ) (reward : ℚ) :
    SampleAverageAgent :=
  let counts2 := ag.counts.set action (ag.counts.getD action 0 + 1)
  let c : ℤ := counts2.getD action 0
  { ag with
    counts := counts2
    Q := ag.Q.set action (ag.Q.getD action 0 + (reward - ag.Q.getD action 0) / (c : ℚ)) }

/-- `SampleAverageAgent::reset`: zero the estimates and the counts. -/
def SampleAverageAgent.reset (ag : SampleAverageAgent) : SampleAverageAgent :=
  { ag with
    Q := List.replicate ag.Q.length 0
    counts := List.replicate ag.counts.length 0 }

/-- `class ConstantStepSizeAgent : public Agent`: estimates `Q`, exploration
parameter `epsilon`, fixed step size `alpha`. -/
structure ConstantStepSizeAgent where
  Q : List ℚ
  epsilon : ℚ
  alpha : ℚ
deriving DecidableEq

/-- `ConstantStepSizeAgent::ConstantStepSizeAgent(eps, a)`. -/
def ConstantStepSizeAgent.init (eps a : ℚ) : ConstantStepSizeAgent :=
  ⟨List.replicate 10 0, eps, a⟩

/-- `ConstantStepSizeAgent::update`:
`Q[action] += alpha * (reward - Q[action]);`. -/
def ConstantStepSizeAgent.update (ag : ConstantStepSizeAgent) (action : ℕ) (reward : ℚ) :
    ConstantStepSizeAgent :=
  { ag with Q := ag.Q.set action (ag.Q.getD action 0 + ag.alpha * (reward - ag.Q.getD action 0)) }

/-- `ConstantStepSizeAgent` inherits `Agent::reset`. -/
def ConstantStepSizeAgent.reset (ag : ConstantStepSizeAgent) : ConstantStepSizeAgent :=
  { ag with Q := List.replicate ag.Q.length 0 }

/-- `Agent::choose_action`, shared by both variants (estimates `Q`,
parameter `epsilon`).  The member `bern` was constructed as
`bernoulli_distribution(1 - eps)`; when its draw is true the function
returns a `uniform_int_distribution(0, 9)` draw, otherwise the argmax of
the estimates.  Returns the action, the new cursor and the draw trace. -/
def choose_action (Q : List ℚ) (epsilon : ℚ) (f : RStream) (n : ℕ) :
    ℕ × ℕ × List DrawKind :=
  if bernDraw (1 - epsilon) (f n) then
    (unifIntDraw (f (n + 1)), n + 2, [DrawKind.bern, DrawKind.unif])
  else
    (maxElemIdx Q, n + 1, [DrawKind.bern])

/-- The mutable simulation state of `run_exp`: one bandit and the two
agents (`bandit`, `sa_agent`, `css_agent`). -/
structure DynState where
  bandit : Bandit
  sa : SampleAverageAgent
  css : ConstantStepSizeAgent
deriving DecidableEq

/-- The quantities one timestep of one run contributes to the accumulators:
the two sampled rewards and the two optimal-action indicators. -/
structure StepOut where
  sa_reward : ℚ
  sa_hit : ℚ
  css_reward : ℚ
  css_hit : ℚ
deriving DecidableEq

/-- The body of the inner (`step`) loop of `run_exp`: walk the bandit,
record the optimal action, then for each agent in turn choose an action,
sample its reward and update.  An out-of-range reward lookup (never reached,
see the safety theorem) falls back to 0.  Returns the new state, the step's
contributions, the new cursor and the draw trace. -/
def do_step (d : DynState) (f : RStream) (n : ℕ) :
    DynState × StepOut × ℕ × List DrawKind :=
  let w := d.bandit.random_walk f n
  let bandit2 := w.1
  let optimal := bandit2.optimal_action
  let ca := choose_action d.sa.Q d.sa.epsilon f w.2.1
  let sa_reward := (bandit2.get_reward ca.1 (f ca.2.1)).getD 0
  let sa2 := d.sa.update ca.1 sa_reward
  let cb := choose_action d.css.Q d.css.epsilon f (ca.2.1 + 1)
  let css_reward := (bandit2.get_reward cb.1 (f cb.2.1)).getD 0
  let css2 := d.css.update cb.1 css_reward
  (⟨bandit2, sa2, css2⟩,
   ⟨sa_reward, if ca.1 = optimal then 1 else 0,
    css_reward, if cb.1 = optimal then 1 else 0⟩,
   cb.2.1 + 1,
   w.2.2 ++ ca.2.2 ++ [DrawKind.reward] ++ cb.2.2 ++ [DrawKind.reward])

/-- Iterate `do_step` for the remaining number of timesteps, collecting the
per-step contributions in step order. -/
def run_steps (f : RStream) : ℕ → DynState → ℕ → DynState × List StepOut × ℕ × List DrawKind
  | 0, d, n => (d, [], n, [])
  | t + 1, d, n =>
    let s := do_step d f n
    let rest := run_steps f t s.1 s.2.2.1
    (rest.1, s.2.1 :: rest.2.1, rest.2.2.1, s.2.2.2 ++ rest.2.2.2)

/-- One iteration of the outer (`run`) loop: reset the bandit and both
agents, then execute `T` timesteps. -/
def do_rep (f : RStream) (T : ℕ) (d : DynState) (n : ℕ) :
    DynState × List StepOut × ℕ × List DrawKind :=
  run_steps f T ⟨d.bandit.reset, d.sa.reset, d.css.reset⟩ n

/-- The statistics accumulators of `run_exp`: `sa_rewards`, `css_rewards`,
`sa_optimal`, `css_optimal`. -/
structure Stats where
  sa_rewards : List ℚ
  css_rewards : List ℚ
  sa_optimal : List ℚ
  css_optimal : List ℚ
deriving DecidableEq

/-- The accumulators at the start of `run_exp`:
`vector<double>(num_steps, 0.0)` four times. -/
def Stats.start (T : ℕ) : Stats :=
  ⟨List.replicate T 0, List.replicate T 0, List.replicate T 0, List.replicate T 0⟩

/-- Add one element `x` into slot `t` of an accumulator
(`acc[step] += x`). -/
def bump (l : List ℚ) (t : ℕ) (x : ℚ) : List ℚ := l.set t (l.getD t 0 + x)

/-- The four accumulator updates of one timestep (`sa_rewards[step] +=
sa_reward; sa_optimal[step] += ...;` and likewise for `css`). -/
def Stats.add (a : Stats) (t : ℕ) (o : StepOut) : Stats :=
  ⟨bump a.sa_rewards t o.sa_reward,
   bump a.css_rewards t o.css_reward,
   bump a.sa_optimal t o.sa_hit,
   bump a.css_optimal t o.css_hit⟩

/-- Fold one run's per-step contributions into the accumulators, step `t0`
first. -/
def accum_outs : Stats → ℕ → List StepOut → Stats
  | a, _, [] => a
  | a, t0, o :: os => accum_outs (a.add t0 o) (t0 + 1) os

/-- The outer loop of `run_exp`: execute the remaining number of runs,
accumulating statistics. Returns the accumulators, the final simulation
state, the final cursor and the full draw trace. -/
def run_reps (f : RStream) (T : ℕ) : ℕ → DynState → Stats → ℕ → Stats × DynState × ℕ × List DrawKind
  | 0, d, a, n => (a, d, n, [])
  | r + 1, d, a, n =>
    let rep := do_rep f T d n
    let rest := run_reps f T r rep.1 (accum_outs a 0 rep.2.1) rep.2.2.1
    (rest.1, rest.2.1, rest.2.2.1, rep.2.2.2 ++ rest.2.2.2)

/-- The per-run contribution lists, in run order (run `0` first): what each
iteration of the outer loop adds to the accumulators. -/
def reps_outs (f : RStream) (T : ℕ) : ℕ → DynState → ℕ → List (List StepOut)
  | 0, _, _ => []
  | r + 1, d, n =>
    let rep := do_rep f T d n
    rep.2.1 :: reps_outs f T r rep.1 rep.2.2.1

/-- The objects constructed at the top of `run_exp`: `Bandit bandit;
SampleAverageAgent sa_agent(0.1); ConstantStepSizeAgent css_agent(0.1, 0.1);`. -/
def dyn_start : DynState :=
  ⟨Bandit.init, SampleAverageAgent.init (1 / 10), ConstantStepSizeAgent.init (1 / 10) (1 / 10)⟩

/-- `run_exp`, generalized over the constants `num_runs = R` and
`num_steps = T`: run all repetitions, then apply the final `transform`s —
rewards are divided by `num_runs`, optimal-action counts are divided by
`num_runs` and scaled by 100. -/
def run_exp (R T : ℕ) (f : RStream) : Stats :=
  let res := run_reps f T R dyn_start (Stats.start T) 0
  ⟨res.1.sa_rewards.map fun x => x / R,
   res.1.css_rewards.map fun x => x / R,
   res.1.sa_optimal.map fun x => x / R * 100,
   res.1.css_optimal.map fun x => x / R * 100⟩

/-- The full draw trace of the experiment. -/
def run_exp_trace (R T : ℕ) (f : RStream) : List DrawKind :=
  (run_reps f T R dyn_start (Stats.start T) 0).2.2.2

/-- `const int num_runs = 2000;` -/
def num_runs : ℕ := 2000

/-- `const int num_steps = 10000;` -/
def num_steps : ℕ := 10000

/-- `run_exp` with the source's constants. -/
def run_exp_main (f : RStream) : Stats := run_exp num_runs num_steps f

/-- Writing then reading the same slot. -/
theorem getD_set_self {α : Type} (l : List α) (i : ℕ) (x d : α) (h : i < l.length) :
    (l.set i x).getD i d = x := by
  simp [List.getD_eq_getElem?_getD, List.getElem?_set_self', List.getElem?_eq_getElem h]

/-- Writing one slot leaves every other slot unchanged. -/
theorem getD_set_other {α : Type} (l : List α) (i j : ℕ) (x d : α) (h : i ≠ j) :
    (l.set i x).getD j d = l.getD j d := by
  simp [List.getD_eq_getElem?_getD, List.getElem?_set_ne h]

/-- Reading any slot of a constant list. -/
theorem getD_replicate {α : Type} (m j : ℕ) (x : α) :
    (List.replicate m x).getD j x = x := by
  simp only [List.getD_eq_getElem?_getD, List.getElem?_replicate]
  split <;> rfl

/-- Characterization of the `max_element` scan: either no remaining element
strictly beats the incoming best, whose index is returned, or the returned
index points at the first strict improvement that is also a maximum of the
remaining elements and strictly above everything before it. -/
theorem argmaxFrom_spec (xs : List ℚ) (bi i : ℕ) (bv : ℚ) :
    (argmaxFrom bi bv i xs = bi ∧ ∀ j, j < xs.length → xs.getD j 0 ≤ bv) ∨
    (∃ j, j < xs.length ∧ argmaxFrom bi bv i xs = i + j ∧ bv < xs.getD j 0 ∧
      (∀ j2, j2 < xs.length → xs.getD j2 0 ≤ xs.getD j 0) ∧
      ∀ j2, j2 < j → xs.getD j2 0 < xs.getD j 0) := by
  induction xs generalizing bi i bv with
  | nil => exact Or.inl ⟨rfl, fun j hj => absurd hj (Nat.not_lt_zero j)⟩
  | cons x xs ih =>
    have hstep : argmaxFrom bi bv i (x :: xs) =
        if bv < x then argmaxFrom i x (i + 1) xs else argmaxFrom bi bv (i + 1) xs := rfl
    by_cases h : bv < x
    · rw [hstep, if_pos h]
      rcases ih i (i + 1) x with ⟨heq, hall⟩ | ⟨j, hj, heq, hgt, hmax, hfst⟩
      · right
        refine ⟨0, Nat.succ_pos _, by rw [heq]; omega, by simpa using h, ?_, ?_⟩
        · intro j2 hj2
          cases j2 with
          | zero => simp
          | succ j2 =>
            simp only [List.getD_cons_succ, List.getD_cons_zero]
            exact hall j2 (by simpa using hj2)
        · intro j2 hj2
          exact absurd hj2 (Nat.not_lt_zero j2)
      · right
        refine ⟨j + 1, by simpa using hj, by rw [heq]; omega, ?_, ?_, ?_⟩
        · simpa using lt_trans h hgt
        · intro j2 hj2
          cases j2 with
          | zero => simpa using le_of_lt hgt
          | succ j2 =>
            simp only [List.getD_cons_succ]
            exact hmax j2 (by simpa using hj2)
        · intro j2 hj2
          cases j2 with
          | zero => simpa using hgt
          | succ j2 =>
            simp only [List.getD_cons_succ]
            exact hfst j2 (by omega)
    · rw [hstep, if_neg h]
      rcases ih bi (i + 1) bv with ⟨heq, hall⟩ | ⟨j, hj, heq, hgt, hmax, hfst⟩
      · left
        refine ⟨heq, ?_⟩
        intro j hj2
        cases j with
        | zero => simpa using not_lt.mp h
        | succ j =>
          simp only [List.getD_cons_succ]
          exact hall j (by simpa using hj2)
      · right
        refine ⟨j + 1, by simpa using hj, by rw [heq]; omega, ?_, ?_, ?_⟩
        · simpa using hgt
        · intro j2 hj2
          cases j2 with
          | zero => simpa using le_of_lt (lt_of_le_of_lt (not_lt.mp h) hgt)
          | succ j2 =>
            simp only [List.getD_cons_succ]
            exact hmax j2 (by simpa using hj2)
        · intro j2 hj2
          cases j2 with
          | zero => simpa using lt_of_le_of_lt (not_lt.mp h) hgt
          | succ j2 =>
            simp only [List.getD_cons_succ]
            exact hfst j2 (by omega)

/-- On a nonempty list, `maxElemIdx` is in range, points at a maximum, and
everything strictly before it is strictly smaller (first maximum wins). -/
theorem maxElemIdx_spec (l : List ℚ) (h : l ≠ []) :
    maxElemIdx l < l.length ∧
    (∀ j, j < l.length → l.getD j 0 ≤ l.getD (maxElemIdx l) 0) ∧
    ∀ j, j < maxElemIdx l → l.getD j 0 < l.getD (maxElemIdx l) 0 := by
  match l, h with
  | x :: xs, _ =>
    have hm : maxElemIdx (x :: xs) = argmaxFrom 0 x 1 xs := rfl
    rcases argmaxFrom_spec xs 0 1 x with ⟨heq, hall⟩ | ⟨j, hj, heq, hgt, hmax, hfst⟩
    · rw [hm, heq]
      refine ⟨Nat.succ_pos _, ?_, ?_⟩
      · intro j hj2
        cases j with
        | zero => simp
        | succ j =>
          simp only [List.getD_cons_succ, List.getD_cons_zero]
          exact hall j (by simpa using hj2)
      · intro j hj2
        exact absurd hj2 (Nat.not_lt_zero j)
    · have hm2 : maxElemIdx (x :: xs) = j + 1 := by rw [hm, heq]; omega
      rw [hm2]
      refine ⟨by simpa using hj, ?_, ?_⟩
      · intro j2 hj2
        cases j2 with
        | zero => simpa using le_of_lt hgt
        | succ j2 =>
          simp only [List.getD_cons_succ]
          exact hmax j2 (by simpa using hj2)
      · intro j2 hj2
        cases j2 with
        | zero => simpa using hgt
        | succ j2 =>
          simp only [List.getD_cons_succ]
          exact hfst j2 (by omega)

/-- On an all-zero list the scan keeps the initial index 0. -/
theorem maxElemIdx_replicate_zero (m : ℕ) : maxElemIdx (List.replicate m (0 : ℚ)) = 0 := by
  cases m with
  | zero => rfl
  | succ k =>
    show argmaxFrom 0 0 1 (List.replicate k 0) = 0
    rcases argmaxFrom_spec (List.replicate k 0) 0 1 0 with ⟨heq, _⟩ | ⟨j, _, _, hgt, _, _⟩
    · exact heq
    · rw [getD_replicate] at hgt
      exact absurd hgt (lt_irrefl 0)

/-- The count slot touched by `SampleAverageAgent::update` holds the
incremented count. -/
theorem update_counts_getD (ag : SampleAverageAgent) (a : ℕ) (r : ℚ)
    (hc : a < ag.counts.length) :
    (ag.update a r).counts.getD a 0 = ag.counts.getD a 0 + 1 := by
  simp only [SampleAverageAgent.update]
  exact getD_set_self _ _ _ _ hc

/-- The estimate slot touched by `SampleAverageAgent::update` moves by the
error divided by the just-incremented count. -/
theorem update_Q_getD (ag : SampleAverageAgent) (a : ℕ) (r : ℚ)
    (ha : a < ag.Q.length) (hc : a < ag.counts.length) :
    (ag.update a r).Q.getD a 0 =
      ag.Q.getD a 0 + (r - ag.Q.getD a 0) / ((ag.counts.getD a 0 + 1 : ℤ) : ℚ) := by
  simp only [SampleAverageAgent.update]
  rw [getD_set_self _ _ _ _ ha, getD_set_self _ _ _ _ hc]

/-- `SampleAverageAgent::update` keeps both vector lengths. -/
theorem update_lengths (ag : SampleAverageAgent) (a : ℕ) (r : ℚ) :
    (ag.update a r).Q.length = ag.Q.length ∧
    (ag.update a r).counts.length = ag.counts.length := by
  simp [SampleAverageAgent.update]

/-- Iterate `update` on one action over a list of rewards, first reward
first. -/
def applyRewards (ag : SampleAverageAgent) (a : ℕ) (rs : List ℚ) : SampleAverageAgent :=
  rs.foldl (fun s r => s.update a r) ag

/-- Running-mean invariant: starting from count `k ≥ 1` and estimate `s/k`,
applying rewards `rs` yields count `k + |rs|` and estimate
`(s + sum rs)/(k + |rs|)`. -/
theorem applyRewards_mean_aux (a : ℕ) (rs : List ℚ) :
    ∀ (ag : SampleAverageAgent) (k : ℕ) (s : ℚ),
      a < ag.Q.length → a < ag.counts.length →
      0 < k → ag.counts.getD a 0 = (k : ℤ) → ag.Q.getD a 0 = s / (k : ℚ) →
      (applyRewards ag a rs).Q.getD a 0 = (s + rs.sum) / ((k : ℚ) + rs.length) ∧
      (applyRewards ag a rs).counts.getD a 0 = (k : ℤ) + rs.length := by
  induction rs with
  | nil =>
    intro ag k s hQ hC hk hcount hmean
    constructor
    · simpa [applyRewards] using hmean
    · simpa [applyRewards] using hcount
  | cons r rs ih =>
    intro ag k s hQ hC hk hcount hmean
    have hk0 : ((k : ℚ)) ≠ 0 := by
      exact_mod_cast Nat.pos_iff_ne_zero.mp hk
    have hk1 : ((k : ℚ)) + 1 ≠ 0 := by positivity
    have hstep : applyRewards ag a (r :: rs) = applyRewards (ag.update a r) a rs := rfl
    have hQ2 : a < (ag.update a r).Q.length := by
      rw [(update_lengths ag a r).1]; exact hQ
    have hC2 : a < (ag.update a r).counts.length := by
      rw [(update_lengths ag a r).2]; exact hC
    have hcount2 : (ag.update a r).counts.getD a 0 = ((k + 1 : ℕ) : ℤ) := by
      rw [update_counts_getD ag a r hC, hcount]; push_cast; ring
    have hmean2 : (ag.update a r).Q.getD a 0 = (s + r) / ((k + 1 : ℕ) : ℚ) := by
      rw [update_Q_getD ag a r hQ hC, hcount, hmean]
      push_cast
      field_simp
      ring
    have hres := ih (ag.update a r) (k + 1) (s + r) hQ2 hC2 (Nat.succ_pos k) hcount2 hmean2
    rw [hstep]
    constructor
    · rw [hres.1]
      simp only [List.sum_cons, List.length_cons]
      push_cast
      ring_nf
    · rw [hres.2]
      simp only [List.length_cons]
      push_cast
      ring

/-- C3: `SampleAverageAgent::update` increments the visitation count and then
moves the estimate by the error over the incremented count; iterated on one
action from count zero the estimate is the exact running mean of the rewards
seen, and a single update from the zero state yields exactly the reward. -/
theorem sampleAverage_update_running_mean (ag : SampleAverageAgent) (a : ℕ) (r : ℚ)
    (ha : a < ag.Q.length) (hc : a < ag.counts.length) :
    ((ag.update a r).counts.getD a 0 = ag.counts.getD a 0 + 1 ∧
     (ag.update a r).Q.getD a 0 =
       ag.Q.getD a 0 + (r - ag.Q.getD a 0) / ((ag.counts.getD a 0 + 1 : ℤ) : ℚ)) ∧
    (∀ rs : List ℚ, rs ≠ [] → ag.counts.getD a 0 = 0 →
       (applyRewards ag a rs).Q.getD a 0 = rs.sum / rs.length) ∧
    (ag.counts.getD a 0 = 0 → ag.Q.getD a 0 = 0 → (ag.update a r).Q.getD a 0 = r) := by
  refine ⟨⟨update_counts_getD ag a r hc, update_Q_getD ag a r ha hc⟩, ?_, ?_⟩
  · intro rs hrs hzero
    match rs, hrs with
    | r0 :: rest, _ =>
      have hstep : applyRewards ag a (r0 :: rest) = applyRewards (ag.update a r0) a rest := rfl
      have hQ2 : a < (ag.update a r0).Q.length := by
        rw [(update_lengths ag a r0).1]; exact ha
      have hC2 : a < (ag.update a r0).counts.length := by
        rw [(update_lengths ag a r0).2]; exact hc
      have hcount2 : (ag.update a r0).counts.getD a 0 = ((1 : ℕ) : ℤ) := by
        rw [update_counts_getD ag a r0 hc, hzero]; ring
      have hmean2 : (ag.update a r0).Q.getD a 0 = r0 / ((1 : ℕ) : ℚ) := by
        rw [update_Q_getD ag a r0 ha hc, hzero]
        norm_num
      have hres := (applyRewards_mean_aux a rest (ag.update a r0) 1 r0
        hQ2 hC2 Nat.one_pos hcount2 hmean2).1
      rw [hstep, hres]
      simp only [List.sum_cons, List.length_cons]
      push_cast
      ring_nf
  · intro hzero hq
    rw [update_Q_getD ag a r ha hc, hzero, hq]
    norm_num

/-- Concrete instance of the C3 theorem: a fresh agent, action 2, reward 7. -/
theorem sampleAverage_update_running_mean_witness :
    (2 < (SampleAverageAgent.init (1 / 10)).Q.length ∧
     2 < (SampleAverageAgent.init (1 / 10)).counts.length) ∧
    ((((SampleAverageAgent.init (1 / 10)).update 2 7).counts.getD 2 0 =
        (SampleAverageAgent.init (1 / 10)).counts.getD 2 0 + 1 ∧
      ((SampleAverageAgent.init (1 / 10)).update 2 7).Q.getD 2 0 =
        (SampleAverageAgent.init (1 / 10)).Q.getD 2 0 +
          (7 - (SampleAverageAgent.init (1 / 10)).Q.getD 2 0) /
            (((SampleAverageAgent.init (1 / 10)).counts.getD 2 0 + 1 : ℤ) : ℚ)) ∧
     (∀ rs : List ℚ, rs ≠ [] → (SampleAverageAgent.init (1 / 10)).counts.getD 2 0 = 0 →
        (applyRewards (SampleAverageAgent.init (1 / 10)) 2 rs).Q.getD 2 0 =
          rs.sum / rs.length) ∧
     ((SampleAverageAgent.init (1 / 10)).counts.getD 2 0 = 0 →
      (SampleAverageAgent.init (1 / 10)).Q.getD 2 0 = 0 →
      ((SampleAverageAgent.init (1 / 10)).update 2 7).Q.getD 2 0 = 7)) :=
  ⟨⟨by decide, by decide⟩,
   sampleAverage_update_running_mean (SampleAverageAgent.init (1 / 10)) 2 7
     (by decide) (by decide)⟩

/-- C4: `ConstantStepSizeAgent::update` sets the estimate to
`estimate + alpha * (reward - estimate)`; applied once to a zero estimate it
yields exactly `alpha * reward`. -/
theorem constantStep_update_spec (ag : ConstantStepSizeAgent) (a : ℕ) (r : ℚ)
    (ha : a < ag.Q.length) (h0 : 0 < ag.alpha) (h1 : ag.alpha ≤ 1) :
    (ag.update a r).Q.getD a 0 = ag.Q.getD a 0 + ag.alpha * (r - ag.Q.getD a 0) ∧
    (ag.Q.getD a 0 = 0 → (ag.update a r).Q.getD a 0 = ag.alpha * r) := by
  have hset : (ag.update a r).Q.getD a 0 =
      ag.Q.getD a 0 + ag.alpha * (r - ag.Q.getD a 0) := by
    simp only [ConstantStepSizeAgent.update]
    exact getD_set_self _ _ _ _ ha
  refine ⟨hset, fun hz => ?_⟩
  rw [hset, hz]
  ring

/-- Concrete instance of the C4 theorem: a fresh agent, action 0, reward 4. -/
theorem constantStep_update_spec_witness :
    (0 < (ConstantStepSizeAgent.init (1 / 10) (1 / 10)).Q.length ∧
     0 < (ConstantStepSizeAgent.init (1 / 10) (1 / 10)).alpha ∧
     (ConstantStepSizeAgent.init (1 / 10) (1 / 10)).alpha ≤ 1) ∧
    (((ConstantStepSizeAgent.init (1 / 10) (1 / 10)).update 0 4).Q.getD 0 0 =
       (ConstantStepSizeAgent.init (1 / 10) (1 / 10)).Q.getD 0 0 +
         (ConstantStepSizeAgent.init (1 / 10) (1 / 10)).alpha *
           (4 - (ConstantStepSizeAgent.init (1 / 10) (1 / 10)).Q.getD 0 0) ∧
     ((ConstantStepSizeAgent.init (1 / 10) (1 / 10)).Q.getD 0 0 = 0 →
      ((ConstantStepSizeAgent.init (1 / 10) (1 / 10)).update 0 4).Q.getD 0 0 =
        (ConstantStepSizeAgent.init (1 / 10) (1 / 10)).alpha * 4)) :=
  ⟨⟨by decide, by norm_num [ConstantStepSizeAgent.init], by norm_num [ConstantStepSizeAgent.init]⟩,
   constantStep_update_spec (ConstantStepSizeAgent.init (1 / 10) (1 / 10)) 0 4
     (by decide) (by norm_num [ConstantStepSizeAgent.init]) (by norm_num [ConstantStepSizeAgent.init])⟩

/-- C5: `Bandit::optimal_action` returns an in-range index of the maximum
true mean with ties broken by the lowest index, and immediately after
`Bandit::reset` (all means zero) it returns action 0. -/
theorem optimal_action_spec (b : Bandit) (h : b.q_true ≠ []) :
    b.optimal_action < b.q_true.length ∧
    (∀ j, j < b.q_true.length → b.q_true.getD j 0 ≤ b.q_true.getD b.optimal_action 0) ∧
    (∀ j, j < b.optimal_action → b.q_true.getD j 0 < b.q_true.getD b.optimal_action 0) ∧
    (Bandit.reset b).optimal_action = 0 := by
  have hs := maxElemIdx_spec b.q_true h
  exact ⟨hs.1, hs.2.1, hs.2.2, maxElemIdx_replicate_zero _⟩

/-- Concrete bandit state with a tie between slots 1 and 3. -/
def tieBandit : Bandit := ⟨[0, 2, 1, 2]⟩

/-- Concrete instance of the C5 theorem at a state with a tie. -/
theorem optimal_action_spec_witness :
    tieBandit.q_true ≠ [] ∧
    (tieBandit.optimal_action < tieBandit.q_true.length ∧
     (∀ j, j < tieBandit.q_true.length →
        tieBandit.q_true.getD j 0 ≤ tieBandit.q_true.getD tieBandit.optimal_action 0) ∧
     (∀ j, j < tieBandit.optimal_action →
        tieBandit.q_true.getD j 0 < tieBandit.q_true.getD tieBandit.optimal_action 0) ∧
     (Bandit.reset tieBandit).optimal_action = 0) :=
  ⟨by decide, optimal_action_spec tieBandit (by decide)⟩

/-- C9: `update` on either agent variant changes only the state at the
updated action: estimates and counts at every other index, `epsilon` and
`alpha` are unchanged. -/
theorem update_frame_spec (a j : ℕ) (r : ℚ) (sa : SampleAverageAgent)
    (css : ConstantStepSizeAgent) (hj : j ≠ a) :
    (sa.update a r).Q.getD j 0 = sa.Q.getD j 0 ∧
    (sa.update a r).counts.getD j 0 = sa.counts.getD j 0 ∧
    (sa.update a r).epsilon = sa.epsilon ∧
    (css.update a r).Q.getD j 0 = css.Q.getD j 0 ∧
    (css.update a r).epsilon = css.epsilon ∧
    (css.update a r).alpha = css.alpha := by
  refine ⟨?_, ?_, rfl, ?_, rfl, rfl⟩
  · exact getD_set_other sa.Q a j _ 0 (Ne.symm hj)
  · exact getD_set_other sa.counts a j _ 0 (Ne.symm hj)
  · exact getD_set_other css.Q a j _ 0 (Ne.symm hj)

/-- Concrete instance of the C9 theorem: update action 2, observe slot 5. -/
theorem update_frame_spec_witness :
    (5 : ℕ) ≠ 2 ∧
    (((SampleAverageAgent.init (1 / 10)).update 2 7).Q.getD 5 0 =
       (SampleAverageAgent.init (1 / 10)).Q.getD 5 0 ∧
     ((SampleAverageAgent.init (1 / 10)).update 2 7).counts.getD 5 0 =
       (SampleAverageAgent.init (1 / 10)).counts.getD 5 0 ∧
     ((SampleAverageAgent.init (1 / 10)).update 2 7).epsilon =
       (SampleAverageAgent.init (1 / 10)).epsilon ∧
     ((ConstantStepSizeAgent.init (1 / 10) (1 / 10)).update 2 7).Q.getD 5 0 =
       (ConstantStepSizeAgent.init (1 / 10) (1 / 10)).Q.getD 5 0 ∧
     ((ConstantStepSizeAgent.init (1 / 10) (1 / 10)).update 2 7).epsilon =
       (ConstantStepSizeAgent.init (1 / 10) (1 / 10)).epsilon ∧
     ((ConstantStepSizeAgent.init (1 / 10) (1 / 10)).update 2 7).alpha =
       (ConstantStepSizeAgent.init (1 / 10) (1 / 10)).alpha) :=
  ⟨by decide,
   update_frame_spec 2 5 7 (SampleAverageAgent.init (1 / 10))
     (ConstantStepSizeAgent.init (1 / 10) (1 / 10)) (by decide)⟩

/-- States of the sample-average agent reachable from construction by any
sequence of `update` and `reset` calls. -/
inductive SAReachable : SampleAverageAgent → Prop
  | construct (eps : ℚ) : SAReachable (SampleAverageAgent.init eps)
  | step (s : SampleAverageAgent) (a : ℕ) (r : ℚ) :
      SAReachable s → SAReachable (s.update a r)
  | wipe (s : SampleAverageAgent) : SAReachable s → SAReachable s.reset

/-- C10: in every reachable state all visitation counts are non-negative,
and the divisor used by `SampleAverageAgent::update` — the count at the
updated action, read after the increment — is at least 1, so the division
never divides by zero. -/
theorem sampleAverage_no_div_by_zero (s : SampleAverageAgent) (hs : SAReachable s) :
    (∀ j, 0 ≤ s.counts.getD j 0) ∧
    ∀ a r, a < s.counts.length →
      (s.update a r).counts.getD a 0 = s.counts.getD a 0 + 1 ∧
      1 ≤ (s.update a r).counts.getD a 0 := by
  have hn : ∀ j, 0 ≤ s.counts.getD j 0 := by
    induction hs with
    | construct eps =>
      intro j
      show (0 : ℤ) ≤ (List.replicate 10 (0 : ℤ)).getD j 0
      rw [getD_replicate]
    | step s a r hs ih =>
      intro j
      by_cases hja : j = a
      · subst hja
        by_cases hl : j < s.counts.length
        · rw [update_counts_getD s j r hl]
          have := ih j
          omega
        · have hnoop : (s.update j r).counts = s.counts := by
            simp only [SampleAverageAgent.update]
            exact List.set_eq_of_length_le (by omega)
          rw [hnoop]
          exact ih j
      · have hother : (s.update a r).counts.getD j 0 = s.counts.getD j 0 :=
          getD_set_other s.counts a j _ 0 (fun hh => hja hh.symm)
        rw [hother]
        exact ih j
    | wipe s hs ih =>
      intro j
      show (0 : ℤ) ≤ (List.replicate s.counts.length (0 : ℤ)).getD j 0
      rw [getD_replicate]
  refine ⟨hn, fun a r ha => ?_⟩
  have h1 := update_counts_getD s a r ha
  have h2 := hn a
  exact ⟨h1, by omega⟩

/-- Concrete instance of the C10 theorem at the freshly constructed agent. -/
theorem sampleAverage_no_div_by_zero_witness :
    (∀ j, 0 ≤ (SampleAverageAgent.init (1 / 10)).counts.getD j 0) ∧
    ∀ a r, a < (SampleAverageAgent.init (1 / 10)).counts.length →
      ((SampleAverageAgent.init (1 / 10)).update a r).counts.getD a 0 =
        (SampleAverageAgent.init (1 / 10)).counts.getD a 0 + 1 ∧
      1 ≤ ((SampleAverageAgent.init (1 / 10)).update a r).counts.getD a 0 :=
  sampleAverage_no_div_by_zero (SampleAverageAgent.init (1 / 10))
    (SAReachable.construct (1 / 10))

/-- C8: on the length-10 state the loop maintains, `choose_action` always
returns an action below 10, `Bandit::get_reward` at any action below 10
succeeds with the true mean plus a unit-deviation noise draw, and in
particular the reward lookup for a chosen action never hits the
out-of-range failure branch. -/
theorem get_reward_in_bounds_safe (b : Bandit) (Q : List ℚ) (eps : ℚ) (f : RStream)
    (n : ℕ) (z : ℚ) (hb : b.q_true.length = 10) (hQ : Q.length = 10) :
    (choose_action Q eps f n).1 < 10 ∧
    (∀ a, a < 10 → b.get_reward a z = some (b.q_true.getD a 0 + normalDraw 0 1 z)) ∧
    b.get_reward (choose_action Q eps f n).1 z ≠ none := by
  have hact : (choose_action Q eps f n).1 < 10 := by
    by_cases hbd : bernDraw (1 - eps) (f n) = true
    · have : (choose_action Q eps f n).1 = unifIntDraw (f (n + 1)) := by
        simp [choose_action, hbd]
      rw [this]
      have : unifIntDraw (f (n + 1)) ≤ 9 := Nat.min_le_left 9 _
      omega
    · have : (choose_action Q eps f n).1 = maxElemIdx Q := by
        simp [choose_action, hbd]
      rw [this]
      have hne : Q ≠ [] := List.ne_nil_of_length_pos (by omega)
      have := (maxElemIdx_spec Q hne).1
      omega
  have hsucc : ∀ a, a < 10 → b.get_reward a z = some (b.q_true.getD a 0 + normalDraw 0 1 z) := by
    intro a haa
    have hlt : a < b.q_true.length := by omega
    have hga : b.q_true[a]? = some b.q_true[a] := List.getElem?_eq_getElem hlt
    have hgd : b.q_true.getD a 0 = b.q_true[a] := by
      rw [List.getD_eq_getElem?_getD, hga]
      rfl
    show (b.q_true.get? a).map _ = _
    rw [List.get?_eq_getElem?, hga, hgd]
    rfl
  refine ⟨hact, hsucc, ?_⟩
  rw [hsucc _ hact]
  exact Option.some_ne_none _

/-- Concrete instance of the C8 theorem at the initial state. -/
theorem get_reward_in_bounds_safe_witness :
    (Bandit.init.q_true.length = 10 ∧ (List.replicate 10 (0 : ℚ)).length = 10) ∧
    ((choose_action (List.replicate 10 0) (1 / 10) (fun _ => 0) 0).1 < 10 ∧
     (∀ a, a < 10 → Bandit.init.get_reward a 0 =
        some (Bandit.init.q_true.getD a 0 + normalDraw 0 1 0)) ∧
     Bandit.init.get_reward (choose_action (List.replicate 10 0) (1 / 10) (fun _ => 0) 0).1 0 ≠
       none) :=
  ⟨⟨by decide, by decide⟩,
   get_reward_in_bounds_safe Bandit.init (List.replicate 10 0) (1 / 10) (fun _ => 0) 0 0
     (by decide) (by decide)⟩

/-- Estimates with a unique maximum at index 3, used to exhibit the inverted
exploration branch. -/
def invQ : List ℚ := [0, 0, 0, 1, 0, 0, 0, 0, 0, 0]

/-- Variate stream whose second element maps to uniform action 5. -/
def invStream : RStream := fun i => if i = 1 then 1 / 2 else 0

/-- C1 (code bug): the source constructs `bern(1 - eps)` and takes the
branch returning a uniformly random action when that draw is true, so it
explores with probability `1 - eps`, not `eps`.  With `eps = 0` the
Bernoulli parameter is 1, every variate in `[0,1)` yields a true draw, and
`choose_action` returns the uniform draw (here 5) instead of the argmax of
the estimates (here 3). -/
theorem choose_action_inverted_eval :
    bernDraw (1 - 0) (invStream 0) = true ∧
    (choose_action invQ 0 invStream 0).1 = 5 ∧
    maxElemIdx invQ = 3 ∧
    (5 : ℕ) ≠ 3 := by
  refine ⟨by norm_num [bernDraw, invStream], ?_, ?_, by decide⟩
  · norm_num [choose_action, bernDraw, invStream, unifIntDraw]
    rfl
  · norm_num [maxElemIdx, invQ, argmaxFrom]

/-- C2: the experiment is a deterministic function of the generator's
variate stream: two runs fed pointwise-equal streams consume their draws in
the same order (equal traces) and produce identical output tables. -/
theorem run_exp_seed_deterministic (f g : RStream) (h : ∀ i, f i = g i) :
    run_exp_main f = run_exp_main g ∧
    run_exp_trace num_runs num_steps f = run_exp_trace num_runs num_steps g := by
  have hfg : f = g := funext h
  subst hfg
  exact ⟨rfl, rfl⟩

/-- Concrete instance of the C2 theorem at the constant-zero stream. -/
theorem run_exp_seed_deterministic_witness :
    run_exp_main (fun _ => 0) = run_exp_main (fun _ => 0) ∧
    run_exp_trace num_runs num_steps (fun _ => 0) =
      run_exp_trace num_runs num_steps (fun _ => 0) :=
  run_exp_seed_deterministic (fun _ => 0) (fun _ => 0) (fun _ => rfl)

/-- The walk loop touches each entry once: it keeps the length, advances the
cursor by the length, and its trace is all walk draws. -/
theorem walkList_spec (f : RStream) (l : List ℚ) : ∀ n : ℕ,
    (walkList f l n).1.length = l.length ∧
    (walkList f l n).2.1 = n + l.length ∧
    (walkList f l n).2.2 = List.replicate l.length DrawKind.walk := by
  induction l with
  | nil => intro n; exact ⟨rfl, rfl, rfl⟩
  | cons q qs ih =>
    intro n
    obtain ⟨h1, h2, h3⟩ := ih (n + 1)
    refine ⟨?_, ?_, ?_⟩
    · show ((q + _) :: (walkList f qs (n + 1)).1).length = (q :: qs).length
      simp [h1]
    · show (walkList f qs (n + 1)).2.1 = n + (q :: qs).length
      rw [h2, List.length_cons]; omega
    · show DrawKind.walk :: (walkList f qs (n + 1)).2.2 =
        List.replicate (q :: qs).length DrawKind.walk
      rw [h3, List.length_cons, List.replicate_succ]

/-- `choose_action` consumes exactly one Bernoulli draw, followed by one
uniform draw exactly when that draw is true (the branch returning the
uniform action), and the cursor advances by the number of draws consumed. -/
theorem choose_action_trace (Q : List ℚ) (eps : ℚ) (f : RStream) (n : ℕ) :
    ((choose_action Q eps f n).2.2 =
       if bernDraw (1 - eps) (f n) then [DrawKind.bern, DrawKind.unif] else [DrawKind.bern]) ∧
    (choose_action Q eps f n).2.1 = n + ((choose_action Q eps f n).2.2).length := by
  by_cases h : bernDraw (1 - eps) (f n) <;> simp [choose_action, h]

/-- The trace of one timestep, read off the loop body. -/
theorem do_step_trace_eq (d : DynState) (f : RStream) (n : ℕ) :
    (do_step d f n).2.2.2 =
      (d.bandit.random_walk f n).2.2 ++
        (choose_action d.sa.Q d.sa.epsilon f (d.bandit.random_walk f n).2.1).2.2 ++
        [DrawKind.reward] ++
        (choose_action d.css.Q d.css.epsilon f
          ((choose_action d.sa.Q d.sa.epsilon f (d.bandit.random_walk f n).2.1).2.1 + 1)).2.2 ++
        [DrawKind.reward] := rfl

/-- The cursor after one timestep, read off the loop body. -/
theorem do_step_cursor_eq (d : DynState) (f : RStream) (n : ℕ) :
    (do_step d f n).2.2.1 =
      (choose_action d.css.Q d.css.epsilon f
        ((choose_action d.sa.Q d.sa.epsilon f (d.bandit.random_walk f n).2.1).2.1 + 1)).2.1 + 1 :=
  rfl

/-- C6 (amended): within a timestep on the length-10 environment the draws
are consumed as: the 10 environment walk draws, then the first agent's
action draws, then its single reward draw, then the second agent's action
draws, then its single reward draw; each action block is one Bernoulli draw
alone on the exploitation branch or followed by one uniform draw on the
exploration branch; and the cursor advances by exactly the number of draws
in the trace. -/
theorem step_draw_order_amended (d : DynState) (f : RStream) (n : ℕ)
    (hb : d.bandit.q_true.length = 10) :
    ∃ A B : List DrawKind,
      (A = [DrawKind.bern] ∨ A = [DrawKind.bern, DrawKind.unif]) ∧
      (B = [DrawKind.bern] ∨ B = [DrawKind.bern, DrawKind.unif]) ∧
      (do_step d f n).2.2.2 =
        List.replicate 10 DrawKind.walk ++ A ++ [DrawKind.reward] ++ B ++ [DrawKind.reward] ∧
      (do_step d f n).2.2.1 = n + ((do_step d f n).2.2.2).length ∧
      ∀ Q eps m, ((choose_action Q eps f m).2.2 =
          if bernDraw (1 - eps) (f m) then [DrawKind.bern, DrawKind.unif]
          else [DrawKind.bern]) ∧
        (choose_action Q eps f m).2.1 = m + ((choose_action Q eps f m).2.2).length := by
  have hw : (d.bandit.random_walk f n).2.2 = List.replicate 10 DrawKind.walk := by
    show (walkList f d.bandit.q_true n).2.2 = _
    rw [(walkList_spec f d.bandit.q_true n).2.2, hb]
  have hwc : (d.bandit.random_walk f n).2.1 = n + 10 := by
    show (walkList f d.bandit.q_true n).2.1 = _
    rw [(walkList_spec f d.bandit.q_true n).2.1, hb]
  obtain ⟨hA, hAc⟩ :=
    choose_action_trace d.sa.Q d.sa.epsilon f (d.bandit.random_walk f n).2.1
  obtain ⟨hB, hBc⟩ :=
    choose_action_trace d.css.Q d.css.epsilon f
      ((choose_action d.sa.Q d.sa.epsilon f (d.bandit.random_walk f n).2.1).2.1 + 1)
  refine ⟨(choose_action d.sa.Q d.sa.epsilon f (d.bandit.random_walk f n).2.1).2.2,
    (choose_action d.css.Q d.css.epsilon f
      ((choose_action d.sa.Q d.sa.epsilon f (d.bandit.random_walk f n).2.1).2.1 + 1)).2.2,
    ?_, ?_, ?_, ?_, ?_⟩
  · rw [hA]
    by_cases h : bernDraw (1 - d.sa.epsilon) (f (d.bandit.random_walk f n).2.1) <;> simp [h]
  · rw [hB]
    by_cases h : bernDraw (1 - d.css.epsilon)
        (f ((choose_action d.sa.Q d.sa.epsilon f (d.bandit.random_walk f n).2.1).2.1 + 1)) <;>
      simp [h]
  · rw [do_step_trace_eq, hw]
  · rw [do_step_cursor_eq, do_step_trace_eq, hw]
    rw [hwc] at hAc hBc ⊢
    simp only [List.length_append, List.length_replicate, List.length_cons,
      List.length_nil]
    omega
  · intro Q eps m
    exact choose_action_trace Q eps f m

/-- Phase of each draw kind under the claimed global per-timestep order:
environment walk draws, then action draws, then reward draws. -/
def phase : DrawKind → ℕ
  | DrawKind.walk => 0
  | DrawKind.bern => 1
  | DrawKind.unif => 1
  | DrawKind.reward => 2

/-- Adjacent-pairs monotonicity check on a list of phases. -/
def phasesMono : List ℕ → Bool
  | [] => true
  | [_] => true
  | x :: y :: l => decide (x ≤ y) && phasesMono (y :: l)

/-- A pairwise-nondecreasing list passes the adjacent-pairs check. -/
theorem phasesMono_of_pairwise :
    ∀ l : List ℕ, l.Pairwise (fun x y => x ≤ y) → phasesMono l = true
  | [], _ => rfl
  | [_], _ => rfl
  | x :: y :: l, h => by
    have hxy : x ≤ y := (List.pairwise_cons.mp h).1 y (List.mem_cons_self y l)
    have ht : (y :: l).Pairwise (fun a b => a ≤ b) := (List.pairwise_cons.mp h).2
    show (decide (x ≤ y) && phasesMono (y :: l)) = true
    rw [phasesMono_of_pairwise (y :: l) ht, decide_eq_true hxy]
    rfl

/-- A constant list is pairwise nondecreasing. -/
theorem pairwise_const (l : List ℕ) (v : ℕ) (h : ∀ x ∈ l, x = v) :
    l.Pairwise (fun x y => x ≤ y) := by
  induction l with
  | nil => exact List.Pairwise.nil
  | cons x xs ih =>
    refine List.Pairwise.cons ?_ (ih fun y hy => h y (List.mem_cons_of_mem x hy))
    intro y hy
    rw [h x (List.mem_cons_self x xs), h y (List.mem_cons_of_mem x hy)]

/-- A trace decomposed as walk draws, then action draws, then reward draws
has nondecreasing phases. -/
theorem phasesMono_of_decomp (W A Rw : List DrawKind)
    (hW : ∀ x ∈ W, x = DrawKind.walk)
    (hA : ∀ x ∈ A, x = DrawKind.bern ∨ x = DrawKind.unif)
    (hRw : ∀ x ∈ Rw, x = DrawKind.reward) :
    phasesMono ((W ++ A ++ Rw).map phase) = true := by
  apply phasesMono_of_pairwise
  have hWp : ∀ x ∈ W.map phase, x = 0 := by
    intro x hx
    obtain ⟨w, hw, hwx⟩ := List.mem_map.mp hx
    rw [← hwx, hW w hw]
    rfl
  have hAp : ∀ x ∈ A.map phase, x = 1 := by
    intro x hx
    obtain ⟨w, hw, hwx⟩ := List.mem_map.mp hx
    rcases hA w hw with h1 | h1 <;> rw [← hwx, h1] <;> rfl
  have hRp : ∀ x ∈ Rw.map phase, x = 2 := by
    intro x hx
    obtain ⟨w, hw, hwx⟩ := List.mem_map.mp hx
    rw [← hwx, hRw w hw]
    rfl
  rw [List.map_append, List.map_append]
  refine List.pairwise_append.mpr ⟨List.pairwise_append.mpr ⟨?_, ?_, ?_⟩, ?_, ?_⟩
  · exact pairwise_const _ 0 hWp
  · exact pairwise_const _ 1 hAp
  · intro a ha b hb
    rw [hWp a ha, hAp b hb]
    omega
  · exact pairwise_const _ 2 hRp
  · intro a ha b hb
    rw [hRp b hb]
    rcases List.mem_append.mp ha with h1 | h1
    · rw [hWp a h1]; omega
    · rw [hAp a h1]; omega

/-- C6 (counterexample): in the first timestep of the experiment the draws
interleave per agent — the second agent's Bernoulli and uniform draws come
after the first agent's reward draw — so the trace admits no decomposition
into all walk draws, then all exploration/action draws, then all reward
draws. -/
theorem step_draw_order_counterexample :
    (do_step dyn_start (fun _ => 0) 0).2.2.2 =
      List.replicate 10 DrawKind.walk ++
        [DrawKind.bern, DrawKind.unif, DrawKind.reward,
         DrawKind.bern, DrawKind.unif, DrawKind.reward] ∧
    ¬ ∃ W A Rw : List DrawKind,
        (∀ x ∈ W, x = DrawKind.walk) ∧
        (∀ x ∈ A, x = DrawKind.bern ∨ x = DrawKind.unif) ∧
        (∀ x ∈ Rw, x = DrawKind.reward) ∧
        (do_step dyn_start (fun _ => 0) 0).2.2.2 = W ++ A ++ Rw := by
  have hw2 : (dyn_start.bandit.random_walk (fun _ => 0) 0).2.2 =
      List.replicate 10 DrawKind.walk := by
    show (walkList (fun _ => 0) dyn_start.bandit.q_true 0).2.2 = List.replicate 10 DrawKind.walk
    rw [(walkList_spec (fun _ => 0) dyn_start.bandit.q_true 0).2.2]
    rfl
  have hb1 : bernDraw (1 - dyn_start.sa.epsilon) (0 : ℚ) = true := by
    simp only [bernDraw, decide_eq_true_eq]
    norm_num [dyn_start, SampleAverageAgent.init]
  have hb2 : bernDraw (1 - dyn_start.css.epsilon) (0 : ℚ) = true := by
    simp only [bernDraw, decide_eq_true_eq]
    norm_num [dyn_start, ConstantStepSizeAgent.init]
  have htr : (do_step dyn_start (fun _ => 0) 0).2.2.2 =
      List.replicate 10 DrawKind.walk ++
        [DrawKind.bern, DrawKind.unif, DrawKind.reward,
         DrawKind.bern, DrawKind.unif, DrawKind.reward] := by
    rw [do_step_trace_eq, hw2]
    simp only [choose_action, hb1, hb2, if_true]
    decide
  refine ⟨htr, ?_⟩
  rintro ⟨W, A, Rw, hW, hA, hRw, hdec⟩
  have hmono := phasesMono_of_decomp W A Rw hW hA hRw
  rw [← hdec, htr] at hmono
  revert hmono
  decide

/-- Concrete instance of the C6 amended theorem at the first timestep. -/
theorem step_draw_order_amended_witness :
    dyn_start.bandit.q_true.length = 10 ∧
    (∃ A B : List DrawKind,
      (A = [DrawKind.bern] ∨ A = [DrawKind.bern, DrawKind.unif]) ∧
      (B = [DrawKind.bern] ∨ B = [DrawKind.bern, DrawKind.unif]) ∧
      (do_step dyn_start (fun _ => 0) 0).2.2.2 =
        List.replicate 10 DrawKind.walk ++ A ++ [DrawKind.reward] ++ B ++ [DrawKind.reward] ∧
      (do_step dyn_start (fun _ => 0) 0).2.2.1 =
        0 + ((do_step dyn_start (fun _ => 0) 0).2.2.2).length ∧
      ∀ Q eps m, ((choose_action Q eps (fun _ => 0) m).2.2 =
          if bernDraw (1 - eps) ((fun _ => (0 : ℚ)) m) then [DrawKind.bern, DrawKind.unif]
          else [DrawKind.bern]) ∧
        (choose_action Q eps (fun _ => 0) m).2.1 =
          m + ((choose_action Q eps (fun _ => 0) m).2.2).length) :=
  ⟨rfl, step_draw_order_amended dyn_start (fun _ => 0) 0 rfl⟩

/-- `bump` keeps the length. -/
theorem bump_length (l : List ℚ) (t0 : ℕ) (x : ℚ) : (bump l t0 x).length = l.length :=
  List.length_set l t0 _

/-- Reading after a `bump`: the bumped slot gains `x`, others are
unchanged. -/
theorem bump_getD (l : List ℚ) (t0 t : ℕ) (x : ℚ) (ht : t < l.length) :
    (bump l t0 x).getD t 0 = l.getD t 0 + if t = t0 then x else 0 := by
  by_cases h : t = t0
  · subst h
    rw [if_pos rfl]
    exact getD_set_self l t (l.getD t 0 + x) 0 ht
  · rw [if_neg h, add_zero]
    exact getD_set_other l t0 t _ 0 fun hh => h hh.symm

/-- Fold of `bump`s at consecutive slots, starting at slot `t0`. -/
def bumpFold : List ℚ → ℕ → List ℚ → List ℚ
  | l, _, [] => l
  | l, t0, x :: xs => bumpFold (bump l t0 x) (t0 + 1) xs

/-- `bumpFold` keeps the length and adds the element whose offset matches
each slot. -/
theorem bumpFold_spec (xs : List ℚ) : ∀ (l : List ℚ) (t0 : ℕ),
    (bumpFold l t0 xs).length = l.length ∧
    ∀ t, t < l.length →
      (bumpFold l t0 xs).getD t 0 =
        l.getD t 0 + if t0 ≤ t ∧ t - t0 < xs.length then xs.getD (t - t0) 0 else 0 := by
  induction xs with
  | nil =>
    intro l t0
    refine ⟨rfl, ?_⟩
    intro t ht
    rw [if_neg (by simp)]
    rw [add_zero]
    rfl
  | cons x xs ih =>
    intro l t0
    obtain ⟨ihlen, ihget⟩ := ih (bump l t0 x) (t0 + 1)
    have hb := bump_length l t0 x
    refine ⟨by rw [show bumpFold l t0 (x :: xs) = bumpFold (bump l t0 x) (t0 + 1) xs from rfl,
      ihlen, hb], ?_⟩
    intro t ht
    rw [show bumpFold l t0 (x :: xs) = bumpFold (bump l t0 x) (t0 + 1) xs from rfl]
    rw [ihget t (by rw [hb]; exact ht), bump_getD l t0 t x ht]
    rcases Nat.lt_trichotomy t t0 with hlt | heq | hgt
    · rw [if_neg (by omega), if_neg (by omega), if_neg (by omega)]
      ring
    · subst heq
      rw [if_pos rfl, if_neg (by omega),
        if_pos ⟨le_refl _, by rw [List.length_cons]; omega⟩]
      rw [Nat.sub_self, List.getD_cons_zero]
      ring
    · rw [if_neg (by omega)]
      by_cases hc : t - (t0 + 1) < xs.length
      · rw [if_pos ⟨by omega, hc⟩, if_pos ⟨by omega, by rw [List.length_cons]; omega⟩]
        rw [show t - t0 = (t - (t0 + 1)) + 1 from by omega, List.getD_cons_succ]
        ring
      · rw [if_neg (by omega), if_neg (by rw [List.length_cons]; omega)]
        ring

/-- `accum_outs` acts independently on the four accumulators as a
`bumpFold` of the corresponding projections. -/
theorem accum_outs_fields (os : List StepOut) : ∀ (a : Stats) (t0 : ℕ),
    accum_outs a t0 os =
      ⟨bumpFold a.sa_rewards t0 (os.map StepOut.sa_reward),
       bumpFold a.css_rewards t0 (os.map StepOut.css_reward),
       bumpFold a.sa_optimal t0 (os.map StepOut.sa_hit),
       bumpFold a.css_optimal t0 (os.map StepOut.css_hit)⟩ := by
  induction os with
  | nil => intro a t0; rfl
  | cons o os ih =>
    intro a t0
    rw [show accum_outs a t0 (o :: os) = accum_outs (a.add t0 o) (t0 + 1) os from rfl, ih]
    rfl

/-- The optimal-action indicators of one timestep are 0 or 1. -/
theorem do_step_hits (d : DynState) (f : RStream) (n : ℕ) :
    ((do_step d f n).2.1.sa_hit = 0 ∨ (do_step d f n).2.1.sa_hit = 1) ∧
    ((do_step d f n).2.1.css_hit = 0 ∨ (do_step d f n).2.1.css_hit = 1) := by
  simp only [do_step]
  constructor <;> split_ifs <;> simp

/-- One run produces exactly `T` step contributions, all indicators 0/1. -/
theorem run_steps_outs (f : RStream) (T : ℕ) (d : DynState) (n : ℕ) :
    (run_steps f T d n).2.1.length = T ∧
    ∀ o ∈ (run_steps f T d n).2.1,
      (o.sa_hit = 0 ∨ o.sa_hit = 1) ∧ (o.css_hit = 0 ∨ o.css_hit = 1) := by
  induction T generalizing d n with
  | zero => exact ⟨rfl, fun o ho => absurd ho (List.not_mem_nil o)⟩
  | succ t ih =>
    obtain ⟨ihlen, ihmem⟩ := ih (do_step d f n).1 (do_step d f n).2.2.1
    rw [show (run_steps f (t + 1) d n).2.1 =
      (do_step d f n).2.1 :: (run_steps f t (do_step d f n).1 (do_step d f n).2.2.1).2.1 from rfl]
    refine ⟨by rw [List.length_cons, ihlen], ?_⟩
    intro o ho
    rcases List.mem_cons.mp ho with h1 | h1
    · rw [h1]; exact do_step_hits d f n
    · exact ihmem o h1

/-- The outer loop produces exactly `R` per-run contribution lists, each of
length `T` with all indicators 0/1. -/
theorem reps_outs_spec (f : RStream) (T : ℕ) (R : ℕ) (d : DynState) (n : ℕ) :
    (reps_outs f T R d n).length = R ∧
    ∀ os ∈ reps_outs f T R d n, os.length = T ∧
      ∀ o ∈ os, (o.sa_hit = 0 ∨ o.sa_hit = 1) ∧ (o.css_hit = 0 ∨ o.css_hit = 1) := by
  induction R generalizing d n with
  | zero => exact ⟨rfl, fun os hos => absurd hos (List.not_mem_nil os)⟩
  | succ r ih =>
    obtain ⟨ihlen, ihmem⟩ := ih (do_rep f T d n).1 (do_rep f T d n).2.2.1
    rw [show reps_outs f T (r + 1) d n =
      (do_rep f T d n).2.1 :: reps_outs f T r (do_rep f T d n).1 (do_rep f T d n).2.2.1 from rfl]
    refine ⟨by rw [List.length_cons, ihlen], ?_⟩
    intro os hos
    rcases List.mem_cons.mp hos with h1 | h1
    · rw [h1]
      exact run_steps_outs f T ⟨d.bandit.reset, d.sa.reset, d.css.reset⟩ n
    · exact ihmem os h1

/-- Generic accumulator characterization for one of the four statistics:
after `R` runs each slot below `T` holds its initial value plus the sum,
over the per-run contribution lists, of the slot's projected entry; and the
accumulator's length never changes. -/
theorem run_reps_field (field : Stats → List ℚ) (proj : StepOut → ℚ)
    (hcompat : ∀ (a : Stats) (t0 : ℕ) (os : List StepOut),
      field (accum_outs a t0 os) = bumpFold (field a) t0 (os.map proj))
    (f : RStream) (T : ℕ) (R : ℕ) :
    ∀ (d : DynState) (a : Stats) (n : ℕ),
    (field (run_reps f T R d a n).1).length = (field a).length ∧
    ∀ t, t < T → t < (field a).length →
      (field (run_reps f T R d a n).1).getD t 0 = (field a).getD t 0 +
        ((reps_outs f T R d n).map fun os => (os.map proj).getD t 0).sum := by
  induction R with
  | zero =>
    intro d a n
    refine ⟨rfl, ?_⟩
    intro t ht htl
    rw [show reps_outs f T 0 d n = [] from rfl]
    rw [List.map_nil, List.sum_nil, add_zero]
    rfl
  | succ r ih =>
    intro d a n
    obtain ⟨ihlen, ihget⟩ :=
      ih (do_rep f T d n).1 (accum_outs a 0 (do_rep f T d n).2.1) (do_rep f T d n).2.2.1
    have hrw : (run_reps f T (r + 1) d a n).1 =
        (run_reps f T r (do_rep f T d n).1 (accum_outs a 0 (do_rep f T d n).2.1)
          (do_rep f T d n).2.2.1).1 := rfl
    have hafield : field (accum_outs a 0 (do_rep f T d n).2.1) =
        bumpFold (field a) 0 ((do_rep f T d n).2.1.map proj) := hcompat a 0 _
    have hlen2 : (bumpFold (field a) 0 ((do_rep f T d n).2.1.map proj)).length =
        (field a).length := (bumpFold_spec _ (field a) 0).1
    constructor
    · rw [hrw, ihlen, hafield, hlen2]
    · intro t ht htl
      have houts : (do_rep f T d n).2.1.length = T :=
        (run_steps_outs f T ⟨d.bandit.reset, d.sa.reset, d.css.reset⟩ n).1
      have hcontrib : (field (accum_outs a 0 (do_rep f T d n).2.1)).getD t 0 =
          (field a).getD t 0 + ((do_rep f T d n).2.1.map proj).getD t 0 := by
        rw [hafield, (bumpFold_spec _ (field a) 0).2 t htl]
        rw [if_pos ⟨Nat.zero_le t, by rw [Nat.sub_zero, List.length_map, houts]; exact ht⟩]
        rw [Nat.sub_zero]
      have hrec := ihget t ht (by rw [hafield, hlen2]; exact htl)
      rw [hrw, hrec, hcontrib]
      rw [show (reps_outs f T (r + 1) d n).map (fun os => (os.map proj).getD t 0) =
          ((do_rep f T d n).2.1.map proj).getD t 0 ::
            (reps_outs f T r (do_rep f T d n).1 (do_rep f T d n).2.2.1).map
              (fun os => (os.map proj).getD t 0) from rfl]
      rw [List.sum_cons]
      ring

/-- Reading an in-range slot of a mapped list. -/
theorem getD_map_of_lt (g : ℚ → ℚ) (l : List ℚ) (t : ℕ) (ht : t < l.length) :
    (l.map g).getD t 0 = g (l.getD t 0) := by
  have hga : l[t]? = some l[t] := List.getElem?_eq_getElem ht
  rw [List.getD_eq_getElem?_getD, List.getD_eq_getElem?_getD, List.getElem?_map, hga]
  rfl

/-- An in-range slot of a projected list is the projection of some member. -/
theorem getD_map_mem (proj : StepOut → ℚ) (os : List StepOut) (t : ℕ) (ht : t < os.length) :
    ∃ o, o ∈ os ∧ (os.map proj).getD t 0 = proj o := by
  have hga : os[t]? = some os[t] := List.getElem?_eq_getElem ht
  refine ⟨os[t], List.getElem_mem ht, ?_⟩
  rw [List.getD_eq_getElem?_getD, List.getElem?_map, hga]
  rfl

/-- A list of values all in `[0, c]` sums into `[0, |l| * c]`. -/
theorem sum_bounded (l : List ℚ) (c : ℚ) (h : ∀ x ∈ l, 0 ≤ x ∧ x ≤ c) :
    0 ≤ l.sum ∧ l.sum ≤ l.length * c := by
  induction l with
  | nil => simp
  | cons x xs ih =>
    obtain ⟨h1, h2⟩ := h x (List.mem_cons_self x xs)
    obtain ⟨h3, h4⟩ := ih fun y hy => h y (List.mem_cons_of_mem x hy)
    constructor
    · rw [List.sum_cons]; exact add_nonneg h1 h3
    · rw [List.sum_cons, List.length_cons]
      push_cast
      nlinarith
  
/-- A list of equal values sums to the value scaled by the length. -/
theorem sum_const_list (l : List ℚ) (v : ℚ) (h : ∀ x ∈ l, x = v) :
    l.sum = l.length * v := by
  induction l with
  | nil => simp
  | cons x xs ih =>
    rw [List.sum_cons, h x (List.mem_cons_self x xs),
      ih fun y hy => h y (List.mem_cons_of_mem x hy), List.length_cons]
    push_cast
    ring

/-- C7: the final transform divides every accumulated per-timestep reward
sum by the number of runs `R` and divides every accumulated optimal-action
hit count by `R` scaled by 100; consequently, when all `R` repetitions
contribute the same reward `v` at timestep `t` for the sample-average
agent, the final table holds exactly `v` there, and every optimal-action
table value lies in `[0, 100]`. -/
theorem run_exp_aggregation_spec (R T : ℕ) (f : RStream) (t : ℕ) (v : ℚ)
    (hR : 0 < R) (ht : t < T)
    (hv : ∀ os ∈ reps_outs f T R dyn_start 0, (os.map StepOut.sa_reward).getD t 0 = v) :
    (run_exp R T f).sa_rewards.getD t 0 =
      (run_reps f T R dyn_start (Stats.start T) 0).1.sa_rewards.getD t 0 / (R : ℚ) ∧
    (run_exp R T f).sa_rewards.getD t 0 = v ∧
    ∀ t2, t2 < T →
      ((run_exp R T f).sa_optimal.getD t2 0 =
        (run_reps f T R dyn_start (Stats.start T) 0).1.sa_optimal.getD t2 0 / (R : ℚ) * 100 ∧
       0 ≤ (run_exp R T f).sa_optimal.getD t2 0 ∧
       (run_exp R T f).sa_optimal.getD t2 0 ≤ 100 ∧
       0 ≤ (run_exp R T f).css_optimal.getD t2 0 ∧
       (run_exp R T f).css_optimal.getD t2 0 ≤ 100) := by
  have hRpos : (0 : ℚ) < (R : ℚ) := by exact_mod_cast hR
  have hRne : ((R : ℚ)) ≠ 0 := ne_of_gt hRpos
  have hcompat1 : ∀ (a : Stats) (t0 : ℕ) (os : List StepOut),
      Stats.sa_rewards (accum_outs a t0 os) = bumpFold a.sa_rewards t0 (os.map StepOut.sa_reward) :=
    fun a t0 os => by rw [accum_outs_fields os a t0]
  have hcompat3 : ∀ (a : Stats) (t0 : ℕ) (os : List StepOut),
      Stats.sa_optimal (accum_outs a t0 os) = bumpFold a.sa_optimal t0 (os.map StepOut.sa_hit) :=
    fun a t0 os => by rw [accum_outs_fields os a t0]
  have hcompat4 : ∀ (a : Stats) (t0 : ℕ) (os : List StepOut),
      Stats.css_optimal (accum_outs a t0 os) = bumpFold a.css_optimal t0 (os.map StepOut.css_hit) :=
    fun a t0 os => by rw [accum_outs_fields os a t0]
  obtain ⟨hlen1, hget1⟩ := run_reps_field Stats.sa_rewards StepOut.sa_reward hcompat1 f T R
    dyn_start (Stats.start T) 0
  obtain ⟨hlen3, hget3⟩ := run_reps_field Stats.sa_optimal StepOut.sa_hit hcompat3 f T R
    dyn_start (Stats.start T) 0
  obtain ⟨hlen4, hget4⟩ := run_reps_field Stats.css_optimal StepOut.css_hit hcompat4 f T R
    dyn_start (Stats.start T) 0
  have hT1 : (Stats.start T).sa_rewards.length = T := List.length_replicate T 0
  have hT3 : (Stats.start T).sa_optimal.length = T := List.length_replicate T 0
  have hT4 : (Stats.start T).css_optimal.length = T := List.length_replicate T 0
  have hz1 : ∀ s, (Stats.start T).sa_rewards.getD s 0 = 0 := fun s => getD_replicate T s 0
  have hz3 : ∀ s, (Stats.start T).sa_optimal.getD s 0 = 0 := fun s => getD_replicate T s 0
  have hz4 : ∀ s, (Stats.start T).css_optimal.getD s 0 = 0 := fun s => getD_replicate T s 0
  have hRlen := (reps_outs_spec f T R dyn_start 0).1
  have hmap1 : (run_exp R T f).sa_rewards.getD t 0 =
      (run_reps f T R dyn_start (Stats.start T) 0).1.sa_rewards.getD t 0 / (R : ℚ) := by
    rw [show (run_exp R T f).sa_rewards =
      ((run_reps f T R dyn_start (Stats.start T) 0).1.sa_rewards).map
        (fun x => x / (R : ℚ)) from rfl]
    exact getD_map_of_lt _ _ t (by rw [hlen1, hT1]; exact ht)
  have hraw1 : (run_reps f T R dyn_start (Stats.start T) 0).1.sa_rewards.getD t 0 =
      (R : ℚ) * v := by
    rw [hget1 t ht (by rw [hT1]; exact ht), hz1 t, zero_add]
    rw [sum_const_list _ v ?_]
    · rw [List.length_map, hRlen]
    · intro x hx
      obtain ⟨os, hos, hosx⟩ := List.mem_map.mp hx
      rw [← hosx]
      exact hv os hos
  refine ⟨hmap1, ?_, ?_⟩
  · rw [hmap1, hraw1, mul_comm, mul_div_assoc, div_self hRne, mul_one]
  · intro t2 ht2
    have hmap3 : (run_exp R T f).sa_optimal.getD t2 0 =
        (run_reps f T R dyn_start (Stats.start T) 0).1.sa_optimal.getD t2 0 / (R : ℚ) * 100 := by
      rw [show (run_exp R T f).sa_optimal =
        ((run_reps f T R dyn_start (Stats.start T) 0).1.sa_optimal).map
          (fun x => x / (R : ℚ) * 100) from rfl]
      exact getD_map_of_lt _ _ t2 (by rw [hlen3, hT3]; exact ht2)
    have hmap4 : (run_exp R T f).css_optimal.getD t2 0 =
        (run_reps f T R dyn_start (Stats.start T) 0).1.css_optimal.getD t2 0 / (R : ℚ) * 100 := by
      rw [show (run_exp R T f).css_optimal =
        ((run_reps f T R dyn_start (Stats.start T) 0).1.css_optimal).map
          (fun x => x / (R : ℚ) * 100) from rfl]
      exact getD_map_of_lt _ _ t2 (by rw [hlen4, hT4]; exact ht2)
    have hb3 : 0 ≤ (run_reps f T R dyn_start (Stats.start T) 0).1.sa_optimal.getD t2 0 ∧
        (run_reps f T R dyn_start (Stats.start T) 0).1.sa_optimal.getD t2 0 ≤ (R : ℚ) := by
      rw [hget3 t2 ht2 (by rw [hT3]; exact ht2), hz3 t2, zero_add]
      have hball : ∀ x ∈ (reps_outs f T R dyn_start 0).map
          (fun os => (os.map StepOut.sa_hit).getD t2 0), 0 ≤ x ∧ x ≤ 1 := by
        intro x hx
        obtain ⟨os, hos, hosx⟩ := List.mem_map.mp hx
        obtain ⟨hoslen, hosmem⟩ := (reps_outs_spec f T R dyn_start 0).2 os hos
        obtain ⟨o, ho, hval⟩ := getD_map_mem StepOut.sa_hit os t2 (by rw [hoslen]; exact ht2)
        rw [← hosx, hval]
        rcases (hosmem o ho).1 with h | h <;> rw [h] <;> norm_num
      have hsum := sum_bounded _ 1 hball
      refine ⟨hsum.1, le_trans hsum.2 ?_⟩
      rw [List.length_map, hRlen, mul_one]
    have hb4 : 0 ≤ (run_reps f T R dyn_start (Stats.start T) 0).1.css_optimal.getD t2 0 ∧
        (run_reps f T R dyn_start (Stats.start T) 0).1.css_optimal.getD t2 0 ≤ (R : ℚ) := by
      rw [hget4 t2 ht2 (by rw [hT4]; exact ht2), hz4 t2, zero_add]
      have hball : ∀ x ∈ (reps_outs f T R dyn_start 0).map
          (fun os => (os.map StepOut.css_hit).getD t2 0), 0 ≤ x ∧ x ≤ 1 := by
        intro x hx
        obtain ⟨os, hos, hosx⟩ := List.mem_map.mp hx
        obtain ⟨hoslen, hosmem⟩ := (reps_outs_spec f T R dyn_start 0).2 os hos
        obtain ⟨o, ho, hval⟩ := getD_map_mem StepOut.css_hit os t2 (by rw [hoslen]; exact ht2)
        rw [← hosx, hval]
        rcases (hosmem o ho).2 with h | h <;> rw [h] <;> norm_num
      have hsum := sum_bounded _ 1 hball
      refine ⟨hsum.1, le_trans hsum.2 ?_⟩
      rw [List.length_map, hRlen, mul_one]
    have hdiv3 : (run_reps f T R dyn_start (Stats.start T) 0).1.sa_optimal.getD t2 0 / (R : ℚ) ≤ 1 :=
      (div_le_one hRpos).mpr hb3.2
    have hdiv4 : (run_reps f T R dyn_start (Stats.start T) 0).1.css_optimal.getD t2 0 / (R : ℚ) ≤ 1 :=
      (div_le_one hRpos).mpr hb4.2
    refine ⟨hmap3, ?_, ?_, ?_, ?_⟩
    · rw [hmap3]
      exact mul_nonneg (div_nonneg hb3.1 (le_of_lt hRpos)) (by norm_num)
    · rw [hmap3]
      calc (run_reps f T R dyn_start (Stats.start T) 0).1.sa_optimal.getD t2 0 / (R : ℚ) * 100
          ≤ 1 * 100 := mul_le_mul_of_nonneg_right hdiv3 (by norm_num)
        _ = 100 := by norm_num
    · rw [hmap4]
      exact mul_nonneg (div_nonneg hb4.1 (le_of_lt hRpos)) (by norm_num)
    · rw [hmap4]
      calc (run_reps f T R dyn_start (Stats.start T) 0).1.css_optimal.getD t2 0 / (R : ℚ) * 100
          ≤ 1 * 100 := mul_le_mul_of_nonneg_right hdiv4 (by norm_num)
        _ = 100 := by norm_num

/-- On the constant-zero stream the single step of a run samples reward 0
for the sample-average agent. -/
theorem zero_stream_rep_eval :
    ((do_rep (fun _ => 0) 1 dyn_start 0).2.1.map StepOut.sa_reward).getD 0 0 = 0 := by
  norm_num [do_rep, run_steps, do_step, dyn_start, Bandit.reset, Bandit.init,
    SampleAverageAgent.reset, SampleAverageAgent.init, ConstantStepSizeAgent.reset,
    ConstantStepSizeAgent.init, Bandit.random_walk, walkList, normalDraw, choose_action,
    bernDraw, unifIntDraw, Bandit.get_reward, Bandit.optimal_action, maxElemIdx, argmaxFrom,
    decide_eq_true_eq]

/-- Every per-run contribution on the zero stream with one run and one step
has sample-average reward 0 at timestep 0. -/
theorem zero_stream_hv :
    ∀ os ∈ reps_outs (fun _ => 0) 1 1 dyn_start 0,
      (os.map StepOut.sa_reward).getD 0 0 = 0 := by
  intro os hos
  have h1 : os = (do_rep (fun _ => 0) 1 dyn_start 0).2.1 := by
    rcases List.mem_cons.mp hos with h | h
    · exact h
    · exact absurd h (List.not_mem_nil os)
  rw [h1]
  exact zero_stream_rep_eval

/-- Concrete instance of the C7 theorem: one run, one timestep, the zero
stream, constant contribution 0. -/
theorem run_exp_aggregation_spec_witness :
    (0 < 1 ∧ 0 < 1 ∧
     ∀ os ∈ reps_outs (fun _ => 0) 1 1 dyn_start 0,
       (os.map StepOut.sa_reward).getD 0 0 = 0) ∧
    ((run_exp 1 1 (fun _ => 0)).sa_rewards.getD 0 0 =
      (run_reps (fun _ => 0) 1 1 dyn_start (Stats.start 1) 0).1.sa_rewards.getD 0 0 /
        ((1 : ℕ) : ℚ) ∧
     (run_exp 1 1 (fun _ => 0)).sa_rewards.getD 0 0 = 0 ∧
     ∀ t2, t2 < 1 →
       ((run_exp 1 1 (fun _ => 0)).sa_optimal.getD t2 0 =
         (run_reps (fun _ => 0) 1 1 dyn_start (Stats.start 1) 0).1.sa_optimal.getD t2 0 /
           ((1 : ℕ) : ℚ) * 100 ∧
        0 ≤ (run_exp 1 1 (fun _ => 0)).sa_optimal.getD t2 0 ∧
        (run_exp 1 1 (fun _ => 0)).sa_optimal.getD t2 0 ≤ 100 ∧
        0 ≤ (run_exp 1 1 (fun _ => 0)).css_optimal.getD t2 0 ∧
        (run_exp 1 1 (fun _ => 0)).css_optimal.getD t2 0 ≤ 100)) :=
  ⟨⟨Nat.one_pos, Nat.one_pos, zero_stream_hv⟩,
   run_exp_aggregation_spec 1 1 (fun _ => 0) 0 0 Nat.one_pos Nat.one_pos zero_stream_hv⟩
